import Mathlib

/-!
Shallow embedding of the zengin-rs library (src/lib.rs): a lookup library for
Japanese bank and branch codes.  Banks and branches are stored in hash maps
keyed by code strings; the public API offers exact-key lookup (`get_bank`,
`get_branch`), regex search over the four name fields
(`find_banks_by_name` / `kana` / `hira` / `roma`, and the branch analogues),
and whole-collection accessors (`all_banks`, `all_branches`).

External crates are modelled rather than translated:
 * the `regex` crate is modelled by an executable regular-expression engine
   (`Regex.compile` for `regex::Regex::new`, `Regex.isMatchStr` for
   `Regex::is_match`) over the core syntax: literals, escapes, `.`,
   character classes, grouping, alternation and the postfix operators
   `*` `+` `?`.  Matching is unanchored search, via Brzozowski derivatives.
 * `serde_json` deserialization of `HashMap<String, Bank>` and
   `HashMap<String, Branch>` is modelled over a JSON value tree (`Json`)
   plus explicit constructors for malformed text and invalid UTF-8 bytes.
 * `HashMap<String, V>` is modelled as an association list with
   insert-replaces-existing semantics; its iteration order is the list
   order (the source treats iteration order as unspecified).
 * the embedded data directory (`include_dir`) is modelled as a
   `DataSource`: an optional content for `banks.json` and a function from a
   bank code to the optional content of `branches/<code>.json`;
   `Option.none` models an absent file, on which the source code calls
   `Option::unwrap` and panics (modelled by `LoadOutcome.panic`).
-/

/-- Regular-expression abstract syntax, modelling the fragment of the
`regex` crate produced by the parser below.  `emptySet` is not produced by
the parser; it arises as a derivative. -/
inductive Regex where
  | emptySet : Regex
  | epsilon : Regex
  | char : Char → Regex
  | dot : Regex
  | cls : Bool → List (Char × Char) → Regex
  | concat : Regex → Regex → Regex
  | alt : Regex → Regex → Regex
  | star : Regex → Regex
deriving DecidableEq, Repr

/-- Whether character `c` is accepted by a character class with negation
flag `neg` and range items `items`. -/
def clsMatch (neg : Bool) (items : List (Char × Char)) (c : Char) : Bool :=
  let inSet := items.any (fun p => p.1.toNat ≤ c.toNat && c.toNat ≤ p.2.toNat)
  if neg then !inSet else inSet

/-- Whether the regular expression accepts the empty string. -/
def Regex.nullable : Regex → Bool
  | .emptySet => false
  | .epsilon => true
  | .char _ => false
  | .dot => false
  | .cls _ _ => false
  | .concat r1 r2 => r1.nullable && r2.nullable
  | .alt r1 r2 => r1.nullable || r2.nullable
  | .star _ => true

/-- Brzozowski derivative of a regular expression by character `a`. -/
def Regex.deriv (a : Char) : Regex → Regex
  | .emptySet => .emptySet
  | .epsilon => .emptySet
  | .char c => if a = c then .epsilon else .emptySet
  | .dot => .epsilon
  | .cls neg items => if clsMatch neg items a then .epsilon else .emptySet
  | .concat r1 r2 =>
      if r1.nullable then .alt (.concat (r1.deriv a) r2) (r2.deriv a)
      else .concat (r1.deriv a) r2
  | .alt r1 r2 => .alt (r1.deriv a) (r2.deriv a)
  | .star r => .concat (r.deriv a) (.star r)

/-- Anchored matching: does `r` match the whole character list? -/
def Regex.fullMatch : Regex → List Char → Bool
  | r, [] => r.nullable
  | r, c :: cs => (r.deriv c).fullMatch cs

/-- Does `r` match some (possibly empty) leading segment of the list? -/
def Regex.matchFromStart : Regex → List Char → Bool
  | r, [] => r.nullable
  | r, c :: cs => r.nullable || (r.deriv c).matchFromStart cs

/-- Unanchored search, the semantics of `Regex::is_match` in the `regex`
crate: does `r` match some contiguous segment of the list? -/
def Regex.isMatch : Regex → List Char → Bool
  | r, [] => r.nullable
  | r, c :: cs => Regex.matchFromStart r (c :: cs) || Regex.isMatch r cs

/-- Model of `Regex::is_match` on a string: unanchored search over its characters. -/
def Regex.isMatchStr (r : Regex) (s : String) : Bool :=
  r.isMatch s.data

/-- Character-class body parser: items until the closing bracket.  An item
is an escaped character, a range `c-d`, or a single character.  Running out
of input is the unclosed-class error of the `regex` crate. -/
def parseClsItems : List Char → List (Char × Char) →
    Except String (List (Char × Char) × List Char)
  | [], _ => .error "unclosed character class"
  | ']' :: rest, acc => .ok (acc, rest)
  | '\\' :: c :: rest, acc => parseClsItems rest ((c, c) :: acc)
  | ['\\'], _ => .error "unclosed character class"
  | c :: '-' :: ']' :: rest, acc => .ok (('-', '-') :: (c, c) :: acc, rest)
  | c :: '-' :: d :: rest, acc => parseClsItems rest ((c, d) :: acc)
  | c :: rest, acc => parseClsItems rest ((c, c) :: acc)
termination_by s _ => s.length

/-- Character-class parser, entered after the opening bracket: optional
negation, then items; a bracket right at the start is a literal item. -/
def parseCls (s : List Char) : Except String (Regex × List Char) :=
  let p : Bool × List Char :=
    match s with
    | '^' :: t => (true, t)
    | t => (false, t)
  let start : List (Char × Char) × List Char :=
    match p.2 with
    | ']' :: t => ([(']', ']')], t)
    | t => ([], t)
  match parseClsItems start.2 start.1 with
  | .error e => .error e
  | .ok (items, rest) => .ok (.cls p.1 items, rest)

/-- One optional postfix repetition operator after an atom. -/
def parseRepOp (r : Regex) : List Char → Regex × List Char
  | '*' :: rest => (.star r, rest)
  | '+' :: rest => (.concat r (.star r), rest)
  | '?' :: rest => (.alt r .epsilon, rest)
  | s => (r, s)

/-- Combine an optional pending sequence with the next factor. -/
def seqAppend : Option Regex → Regex → Regex
  | none, r => r
  | some a, r => .concat a r

/-- The regex of a finished sequence: empty sequences match the empty
string. -/
def seqResult : Option Regex → Regex
  | none => .epsilon
  | some r => r

mutual

/-- Alternation parser (`a|b|c`), fuel-bounded recursive descent. -/
def parseAlt : Nat → List Char → Except String (Regex × List Char)
  | 0, _ => .error "pattern too deep"
  | fuel + 1, s =>
    match parseSeq fuel none s with
    | .error e => .error e
    | .ok (r, rest) => parseAltRest fuel r rest

/-- Remaining `|`-separated branches after the first. -/
def parseAltRest : Nat → Regex → List Char → Except String (Regex × List Char)
  | 0, _, _ => .error "pattern too deep"
  | fuel + 1, acc, s =>
    match s with
    | '|' :: rest =>
      match parseSeq fuel none rest with
      | .error e => .error e
      | .ok (r, rest2) => parseAltRest fuel (.alt acc r) rest2
    | _ => .ok (acc, s)

/-- Concatenation parser: atoms with optional postfix operators, up to a
branch or group boundary. -/
def parseSeq : Nat → Option Regex → List Char → Except String (Regex × List Char)
  | 0, _, _ => .error "pattern too deep"
  | fuel + 1, acc, s =>
    match s with
    | [] => .ok (seqResult acc, [])
    | c :: _ =>
      if c = '|' ∨ c = ')' then .ok (seqResult acc, s)
      else
        match parseAtom fuel s with
        | .error e => .error e
        | .ok (r, rest) =>
          let pr := parseRepOp r rest
          parseSeq fuel (some (seqAppend acc pr.1)) pr.2

/-- Atom parser: group, character class, escape, `.`, or a literal
character; a repetition operator with no preceding atom is an error, as in
the `regex` crate. -/
def parseAtom : Nat → List Char → Except String (Regex × List Char)
  | 0, _ => .error "pattern too deep"
  | fuel + 1, s =>
    match s with
    | [] => .error "expected atom"
    | '(' :: rest =>
      match parseAlt fuel rest with
      | .error e => .error e
      | .ok (r, rest2) =>
        match rest2 with
        | ')' :: rest3 => .ok (r, rest3)
        | _ => .error "unclosed group"
    | '[' :: rest => parseCls rest
    | '\\' :: c :: rest => .ok (.char c, rest)
    | ['\\'] => .error "trailing backslash"
    | '.' :: rest => .ok (.dot, rest)
    | c :: rest =>
      if c = '*' ∨ c = '+' ∨ c = '?' then .error "repetition without expression"
      else .ok (.char c, rest)

end

/-- Model of `regex::Regex::new`: parse the whole pattern; leftover input
can only start with an unmatched closing parenthesis, an error in the
`regex` crate. -/
def Regex.compile (pattern : String) : Except String Regex :=
  match parseAlt (4 * (pattern.length + 1)) pattern.data with
  | .error e => .error e
  | .ok (r, []) => .ok r
  | .ok (_, _ :: _) => .error "unmatched closing parenthesis"

/-- The `Branch` struct of src/lib.rs: a branch of a bank. -/
structure Branch where
  code : String
  name : String
  kana : String
  hira : String
  roma : String
deriving DecidableEq, Repr

/-- Model of `HashMap<String, V>` as an association list; iteration order
(unspecified in the source) is the list order. -/
abbrev AssocMap (V : Type) : Type := List (String × V)

/-- Model of `HashMap::get`: the value bound to `k`, if any. -/
def mapGet {V : Type} (m : AssocMap V) (k : String) : Option V :=
  (List.find? (fun p => p.1 = k) m).map (fun p => p.2)

/-- Model of `HashMap::values`: all bound values, in iteration order. -/
def mapValues {V : Type} (m : AssocMap V) : List V :=
  List.map (fun p => p.2) m

/-- Model of `HashMap::insert`: replace the binding of `k` when present, otherwise
append a new binding. -/
def mapInsert {V : Type} (m : AssocMap V) (k : String) (v : V) : AssocMap V :=
  if List.any m (fun p => p.1 = k) then
    List.map (fun p => if p.1 = k then (k, v) else p) m
  else m ++ [(k, v)]

/-- The keys of a map, in iteration order. -/
def mapKeys {V : Type} (m : AssocMap V) : List String :=
  List.map (fun p => p.1) m

/-- The `BranchMap` type alias of src/lib.rs. -/
abbrev BranchMap : Type := AssocMap Branch

/-- The `Bank` struct of src/lib.rs: a bank together with its branches. -/
structure Bank where
  code : String
  name : String
  kana : String
  hira : String
  roma : String
  branches : BranchMap
deriving DecidableEq, Repr

/-- The `BankMap` type alias of src/lib.rs. -/
abbrev BankMap : Type := AssocMap Bank

/-- The `Zengin` struct of src/lib.rs: the loaded collection of banks. -/
structure Zengin where
  banks : BankMap

/-- Method `Zengin::get_bank`: exact key lookup in the bank map. -/
def Zengin.get_bank (z : Zengin) (code : String) : Option Bank :=
  mapGet z.banks code

/-- Method `Zengin::find_banks_by`: compile the pattern, then collect the banks
whose extracted field matches; the source's accumulation loop over
`self.banks.values()` is the filter over `mapValues`. -/
def Zengin.find_banks_by (z : Zengin) (pattern : String)
    (key_extractor : Bank → String) : Except String (List Bank) :=
  match Regex.compile pattern with
  | .error e => .error e
  | .ok re => .ok (List.filter (fun bank => re.isMatchStr (key_extractor bank))
      (mapValues z.banks))

/-- Method `Zengin::find_banks_by_name`. -/
def Zengin.find_banks_by_name (z : Zengin) (pattern : String) :
    Except String (List Bank) :=
  z.find_banks_by pattern (fun bank => bank.name)

/-- Method `Zengin::find_banks_by_kana`. -/
def Zengin.find_banks_by_kana (z : Zengin) (pattern : String) :
    Except String (List Bank) :=
  z.find_banks_by pattern (fun bank => bank.kana)

/-- Method `Zengin::find_banks_by_hira`. -/
def Zengin.find_banks_by_hira (z : Zengin) (pattern : String) :
    Except String (List Bank) :=
  z.find_banks_by pattern (fun bank => bank.hira)

/-- Method `Zengin::find_banks_by_roma`. -/
def Zengin.find_banks_by_roma (z : Zengin) (pattern : String) :
    Except String (List Bank) :=
  z.find_banks_by pattern (fun bank => bank.roma)

/-- Method `Zengin::all_banks`: the whole bank map. -/
def Zengin.all_banks (z : Zengin) : BankMap :=
  z.banks

/-- Method `Bank::get_branch`: exact key lookup in the branch map. -/
def Bank.get_branch (b : Bank) (code : String) : Option Branch :=
  mapGet b.branches code

/-- Method `Bank::find_branches_by`: same shape as `Zengin.find_banks_by`, over
one bank's branches. -/
def Bank.find_branches_by (b : Bank) (pattern : String)
    (key_extractor : Branch → String) : Except String (List Branch) :=
  match Regex.compile pattern with
  | .error e => .error e
  | .ok re => .ok (List.filter (fun br => re.isMatchStr (key_extractor br))
      (mapValues b.branches))

/-- Method `Bank::find_branches_by_name`. -/
def Bank.find_branches_by_name (b : Bank) (pattern : String) :
    Except String (List Branch) :=
  b.find_branches_by pattern (fun br => br.name)

/-- Method `Bank::find_branches_by_kana`. -/
def Bank.find_branches_by_kana (b : Bank) (pattern : String) :
    Except String (List Branch) :=
  b.find_branches_by pattern (fun br => br.kana)

/-- Method `Bank::find_branches_by_hira`. -/
def Bank.find_branches_by_hira (b : Bank) (pattern : String) :
    Except String (List Branch) :=
  b.find_branches_by pattern (fun br => br.hira)

/-- Method `Bank::find_branches_by_roma`. -/
def Bank.find_branches_by_roma (b : Bank) (pattern : String) :
    Except String (List Branch) :=
  b.find_branches_by pattern (fun br => br.roma)

/-- Method `Bank::all_branches`: the whole branch map. -/
def Bank.all_branches (b : Bank) : BranchMap :=
  b.branches

/-- JSON value tree, the model of a well-formed `serde_json` document. -/
inductive Json where
  | null : Json
  | bool : Bool → Json
  | num : Int → Json
  | str : String → Json
  | arr : List Json → Json
  | obj : List (String × Json) → Json

/-- First value bound to key `k` in a JSON object body. -/
def jGetField (fields : List (String × Json)) (k : String) : Option Json :=
  (List.find? (fun p => p.1 = k) fields).map (fun p => p.2)

/-- A JSON value as a string, when it is one. -/
def jAsString : Json → Option String
  | .str s => some s
  | _ => none

/-- Model of the derived `Deserialize` for `Bank`: the value must be an
object with string fields `code,name,kana,hira,roma`; unknown fields are
ignored; the `branches` field carries `skip_deserializing`, so it is never
read from the input and is left at its default, the empty map. -/
def bankRecordOfJson : Json → Option Bank
  | .obj fields =>
    match jGetField fields "code" with
    | none => none
    | some jc =>
      match jAsString jc with
      | none => none
      | some code =>
        match (jGetField fields "name").bind jAsString with
        | none => none
        | some name =>
          match (jGetField fields "kana").bind jAsString with
          | none => none
          | some kana =>
            match (jGetField fields "hira").bind jAsString with
            | none => none
            | some hira =>
              match (jGetField fields "roma").bind jAsString with
              | none => none
              | some roma =>
                some { code := code, name := name, kana := kana,
                       hira := hira, roma := roma, branches := [] }
  | _ => none

/-- Model of the derived `Deserialize` for `Branch`: an object with string
fields `code,name,kana,hira,roma`; unknown fields are ignored. -/
def branchRecordOfJson : Json → Option Branch
  | .obj fields =>
    match (jGetField fields "code").bind jAsString with
    | none => none
    | some code =>
      match (jGetField fields "name").bind jAsString with
      | none => none
      | some name =>
        match (jGetField fields "kana").bind jAsString with
        | none => none
        | some kana =>
          match (jGetField fields "hira").bind jAsString with
          | none => none
          | some hira =>
            match (jGetField fields "roma").bind jAsString with
            | none => none
            | some roma =>
              some { code := code, name := name, kana := kana,
                     hira := hira, roma := roma }
  | _ => none

/-- The error taxonomy of the library, as the spec names it: `ioError`
models the UTF-8 decoding failure surfaced by `read_data_file`,
`parseError` the `serde_json` failures. -/
inductive ZenginError where
  | ioError : ZenginError
  | parseError : ZenginError
deriving DecidableEq, Repr

/-- The content of one data file as handed to `serde_json::from_str`:
invalid UTF-8 bytes, malformed JSON text, or a well-formed document. -/
inductive JsonText where
  | invalidUtf8Bytes : JsonText
  | malformed : JsonText
  | wellFormed : Json → JsonText

/-- Model of `serde_json` map deserialization, entry by entry in document order:
each value is deserialized (aborting on the first failure) and inserted
into the map, later bindings replacing earlier ones for a repeated key. -/
def bankMapOfFields : List (String × Json) → BankMap → Except ZenginError BankMap
  | [], m => .ok m
  | (k, j) :: rest, m =>
    match bankRecordOfJson j with
    | none => .error .parseError
    | some b => bankMapOfFields rest (mapInsert m k b)

/-- Branch analogue of `bankMapOfFields`. -/
def branchMapOfFields : List (String × Json) → BranchMap →
    Except ZenginError BranchMap
  | [], m => .ok m
  | (k, j) :: rest, m =>
    match branchRecordOfJson j with
    | none => .error .parseError
    | some b => branchMapOfFields rest (mapInsert m k b)

/-- Function `parse_banks` of src/lib.rs: `serde_json::from_str` into
`HashMap<String, Bank>`; anything but a well-formed JSON object is a parse
error. -/
def parse_banks : JsonText → Except ZenginError BankMap
  | .wellFormed (.obj fields) => bankMapOfFields fields []
  | _ => .error .parseError

/-- Function `parse_branches` of src/lib.rs. -/
def parse_branches : JsonText → Except ZenginError BranchMap
  | .wellFormed (.obj fields) => branchMapOfFields fields []
  | _ => .error .parseError

/-- Outcome of a loading step: a typed error returned to the caller, a
successful value, or a process panic (the source's `Option::unwrap` on an
absent embedded file). -/
inductive LoadOutcome (α : Type) where
  | panic : LoadOutcome α
  | error : ZenginError → LoadOutcome α
  | ok : α → LoadOutcome α
deriving DecidableEq, Repr

/-- The embedded data directory (`include_dir`): the optional content of
`banks.json`, and the optional content of `branches/<code>.json` for each
bank code; `none` is an absent file. -/
structure DataSource where
  bankFile : Option JsonText
  branchFile : String → Option JsonText

/-- Function `read_data_file` of src/lib.rs: `DATA_DIR.get_file(path).unwrap()`
panics when the file is absent; invalid UTF-8 contents fail via
`std::str::from_utf8(..)?` with a typed error. -/
def read_data_file : Option JsonText → LoadOutcome JsonText
  | none => .panic
  | some .invalidUtf8Bytes => .error .ioError
  | some t => .ok t

/-- Function `load_banks_from_file` of src/lib.rs: read then parse. -/
def load_banks_from_file (f : Option JsonText) : LoadOutcome BankMap :=
  match read_data_file f with
  | .panic => .panic
  | .error e => .error e
  | .ok t =>
    match parse_banks t with
    | .error e => .error e
    | .ok m => .ok m

/-- Function `load_branches_from_file` of src/lib.rs: read then parse. -/
def load_branches_from_file (f : Option JsonText) : LoadOutcome BranchMap :=
  match read_data_file f with
  | .panic => .panic
  | .error e => .error e
  | .ok t =>
    match parse_branches t with
    | .error e => .error e
    | .ok m => .ok m

/-- The `for bank in banks.values_mut()` loop of `Zengin::new`: for each
bank, in iteration order, load `branches/<bank.code>.json` (note: keyed by
the record's `code` field, not the map key) and set its `branches`. -/
def attachBranches (ds : DataSource) : List (String × Bank) →
    LoadOutcome (List (String × Bank))
  | [] => .ok []
  | (k, b) :: rest =>
    match load_branches_from_file (ds.branchFile b.code) with
    | .panic => .panic
    | .error e => .error e
    | .ok brs =>
      match attachBranches ds rest with
      | .panic => .panic
      | .error e => .error e
      | .ok rest2 => .ok ((k, { b with branches := brs }) :: rest2)

/-- Constructor `Zengin::new` of src/lib.rs, over a data source: load the bank index,
then load and attach each bank's branch index. -/
def Zengin.new (ds : DataSource) : LoadOutcome Zengin :=
  match load_banks_from_file ds.bankFile with
  | .panic => .panic
  | .error e => .error e
  | .ok banks =>
    match attachBranches ds banks with
    | .panic => .panic
    | .error e => .error e
    | .ok banks2 => .ok { banks := banks2 }

/-- The four searchable name fields. -/
inductive NameField where
  | name : NameField
  | kana : NameField
  | hira : NameField
  | roma : NameField
deriving DecidableEq, Repr

/-- The selected field of a bank. -/
def bankField : NameField → Bank → String
  | .name, b => b.name
  | .kana, b => b.kana
  | .hira, b => b.hira
  | .roma, b => b.roma

/-- The selected field of a branch. -/
def branchField : NameField → Branch → String
  | .name, br => br.name
  | .kana, br => br.kana
  | .hira, br => br.hira
  | .roma, br => br.roma

/-- Dispatch to the named `find_banks_by_<field>` method. -/
def findBanksByField (z : Zengin) (f : NameField) (pattern : String) :
    Except String (List Bank) :=
  match f with
  | .name => z.find_banks_by_name pattern
  | .kana => z.find_banks_by_kana pattern
  | .hira => z.find_banks_by_hira pattern
  | .roma => z.find_banks_by_roma pattern

/-- Dispatch to the named `find_branches_by_<field>` method. -/
def findBranchesByField (b : Bank) (f : NameField) (pattern : String) :
    Except String (List Branch) :=
  match f with
  | .name => b.find_branches_by_name pattern
  | .kana => b.find_branches_by_kana pattern
  | .hira => b.find_branches_by_hira pattern
  | .roma => b.find_branches_by_roma pattern

/-- One invocation of the public query API. -/
inductive Query where
  | getBank : String → Query
  | getBranch : String → String → Query
  | findBanksBy : NameField → String → Query
  | findBranchesBy : String → NameField → String → Query
  | allBanks : Query
  | allBranchesOf : String → Query

/-- The result of one query-API invocation. -/
inductive QueryResult where
  | bankOpt : Option Bank → QueryResult
  | branchOpt : Option Branch → QueryResult
  | banksRes : Except String (List Bank) → QueryResult
  | branchesRes : Except String (List Branch) → QueryResult
  | bankMapRes : BankMap → QueryResult
  | branchMapOpt : Option BranchMap → QueryResult

/-- State-passing form of the query API.  Every method of the source takes
`&self` (a shared reference, and the struct has no interior mutability), so
the collection handed to the next operation is the same one; the returned
state makes that frame condition explicit. -/
def runQuery (z : Zengin) : Query → QueryResult × Zengin
  | .getBank code => (.bankOpt (z.get_bank code), z)
  | .getBranch bankCode code =>
      (.branchOpt ((z.get_bank bankCode).bind (fun b => b.get_branch code)), z)
  | .findBanksBy f pattern => (.banksRes (findBanksByField z f pattern), z)
  | .findBranchesBy bankCode f pattern =>
      (.branchesRes
        (match z.get_bank bankCode with
         | none => .ok []
         | some b => findBranchesByField b f pattern), z)
  | .allBanks => (.bankMapRes z.all_banks, z)
  | .allBranchesOf bankCode =>
      (.branchMapOpt ((z.get_bank bankCode).map (fun b => b.all_branches)), z)

/-- A sample branch record. -/
def branchW : Branch :=
  { code := "001", name := "tokyo", kana := "TOKYO", hira := "toukyou",
    roma := "toukiyou" }

/-- A sample bank with one branch. -/
def bankW : Bank :=
  { code := "0001", name := "mizuho", kana := "MIZUHO", hira := "mizuho",
    roma := "mizuho", branches := [("001", branchW)] }

/-- A second sample bank with no branches. -/
def bankW2 : Bank :=
  { code := "0005", name := "btmu", kana := "BTMU", hira := "btmu",
    roma := "btmu", branches := [] }

/-- A sample loaded collection. -/
def zW : Zengin := { banks := [("0001", bankW), ("0005", bankW2)] }

/-- JSON for one bank record. -/
def bankRecJsonW : Json :=
  .obj [("code", .str "0001"), ("name", .str "mizuho"),
    ("kana", .str "MIZUHO"), ("hira", .str "mizuho"), ("roma", .str "mizuho")]

/-- The record `bankRecJsonW` deserializes to. -/
def bankRecW : Bank :=
  { code := "0001", name := "mizuho", kana := "MIZUHO", hira := "mizuho",
    roma := "mizuho", branches := [] }

/-- A one-record bank-index document. -/
def bankIndexJsonW : Json := .obj [("0001", bankRecJsonW)]

/-- Data source whose sole branch index file is absent. -/
def missingBranchDS : DataSource :=
  { bankFile := some (.wellFormed bankIndexJsonW),
    branchFile := fun _ => none }

/-- Data source whose sole branch index file holds invalid UTF-8. -/
def unreadableBranchDS : DataSource :=
  { bankFile := some (.wellFormed bankIndexJsonW),
    branchFile := fun _ => some .invalidUtf8Bytes }

/-- Data source with a malformed bank index. -/
def malformedBankDS : DataSource :=
  { bankFile := some .malformed, branchFile := fun _ => none }

/-- Data source whose sole branch index file is malformed JSON. -/
def malformedBranchDS : DataSource :=
  { bankFile := some (.wellFormed bankIndexJsonW),
    branchFile := fun _ => some .malformed }

/-- A bank record document that carries a spurious `branches` key. -/
def bankRecJsonBrW : Json :=
  .obj [("code", .str "0001"), ("name", .str "mizuho"),
    ("kana", .str "MIZUHO"), ("hira", .str "mizuho"),
    ("roma", .str "mizuho"), ("branches", .obj [("001", .str "junk")])]

/-- A bank record whose `code` field differs from its map key below. -/
def bankMismatchW : Bank :=
  { code := "0001", name := "x", kana := "k", hira := "h", roma := "r",
    branches := [] }

/-- The JSON document of `bankMismatchW`, keyed under "9999". -/
def mismatchJsonW : Json :=
  .obj [("9999", .obj [("code", .str "0001"), ("name", .str "x"),
    ("kana", .str "k"), ("hira", .str "h"), ("roma", .str "r")])]

/-- The language of a regular expression: the inductive matching
relation. -/
inductive RMatch : Regex → List Char → Prop where
  | epsilon : RMatch .epsilon []
  | char (c : Char) : RMatch (.char c) [c]
  | dot (c : Char) : RMatch .dot [c]
  | cls {neg : Bool} {items : List (Char × Char)} (c : Char)
      (h : clsMatch neg items c = true) : RMatch (.cls neg items) [c]
  | concat {r1 r2 : Regex} {s1 s2 : List Char}
      (h1 : RMatch r1 s1) (h2 : RMatch r2 s2) :
      RMatch (.concat r1 r2) (s1 ++ s2)
  | altL {r1 r2 : Regex} {s : List Char} (h : RMatch r1 s) :
      RMatch (.alt r1 r2) s
  | altR {r1 r2 : Regex} {s : List Char} (h : RMatch r2 s) :
      RMatch (.alt r1 r2) s
  | starNil {r : Regex} : RMatch (.star r) []
  | starCons {r : Regex} {s1 s2 : List Char}
      (h1 : RMatch r s1) (h2 : RMatch (.star r) s2) :
      RMatch (.star r) (s1 ++ s2)

/-- Nothing matches the empty-set regex. -/
theorem rmatch_emptySet_elim {s : List Char} (h : RMatch .emptySet s) : False :=
  nomatch h

/-- Inversion for `epsilon`. -/
theorem rmatch_epsilon_elim {s : List Char} (h : RMatch .epsilon s) : s = [] := by
  cases h
  rfl

/-- Inversion for `char`. -/
theorem rmatch_char_elim {c : Char} {s : List Char} (h : RMatch (.char c) s) :
    s = [c] := by
  cases h
  rfl

/-- Inversion for `dot`. -/
theorem rmatch_dot_elim {s : List Char} (h : RMatch .dot s) : ∃ c, s = [c] := by
  cases h
  exact ⟨_, rfl⟩

/-- Inversion for character classes. -/
theorem rmatch_cls_elim {neg : Bool} {items : List (Char × Char)}
    {s : List Char} (h : RMatch (.cls neg items) s) :
    ∃ c, s = [c] ∧ clsMatch neg items c = true := by
  cases h with
  | cls c hc => exact ⟨c, rfl, hc⟩

/-- Inversion for concatenation. -/
theorem rmatch_concat_elim {r1 r2 : Regex} {s : List Char}
    (h : RMatch (.concat r1 r2) s) :
    ∃ s1 s2, s = s1 ++ s2 ∧ RMatch r1 s1 ∧ RMatch r2 s2 := by
  cases h with
  | concat h1 h2 => exact ⟨_, _, rfl, h1, h2⟩

/-- Inversion for alternation. -/
theorem rmatch_alt_elim {r1 r2 : Regex} {s : List Char}
    (h : RMatch (.alt r1 r2) s) : RMatch r1 s ∨ RMatch r2 s := by
  cases h with
  | altL h => exact Or.inl h
  | altR h => exact Or.inr h

/-- Inversion for `star`: a nonempty match splits off a nonempty first
chunk. -/
theorem rmatch_star_elim {q : Regex} {s : List Char} (h : RMatch q s) :
    ∀ r, q = Regex.star r →
      s = [] ∨ ∃ s1 s2, s = s1 ++ s2 ∧ s1 ≠ [] ∧ RMatch r s1 ∧
        RMatch (Regex.star r) s2 := by
  induction h with
  | epsilon => exact fun r hq => Regex.noConfusion hq
  | char c => exact fun r hq => Regex.noConfusion hq
  | dot c => exact fun r hq => Regex.noConfusion hq
  | cls c hc => exact fun r hq => Regex.noConfusion hq
  | concat h1 h2 ih1 ih2 => exact fun r hq => Regex.noConfusion hq
  | altL h ih => exact fun r hq => Regex.noConfusion hq
  | altR h ih => exact fun r hq => Regex.noConfusion hq
  | starNil => exact fun r hq => Or.inl rfl
  | starCons h1 h2 ih1 ih2 =>
    rename_i r0 s1 s2
    intro r hq
    have hr : r0 = r := by injection hq
    cases s1 with
    | nil => simpa using ih2 r hq
    | cons c cs =>
      exact Or.inr ⟨c :: cs, s2, rfl, by simp, hr ▸ h1, hq ▸ h2⟩

/-- Boolean `nullable` decides membership of the empty string. -/
theorem nullable_iff_rmatch (r : Regex) : r.nullable = true ↔ RMatch r [] := by
  induction r with
  | emptySet =>
    simp only [Regex.nullable, Bool.false_eq_true, false_iff]
    exact fun h => rmatch_emptySet_elim h
  | epsilon =>
    simp only [Regex.nullable, true_iff]
    exact RMatch.epsilon
  | char c =>
    simp only [Regex.nullable, Bool.false_eq_true, false_iff]
    intro h
    simpa using rmatch_char_elim h
  | dot =>
    simp only [Regex.nullable, Bool.false_eq_true, false_iff]
    intro h
    simpa using rmatch_dot_elim h
  | cls neg items =>
    simp only [Regex.nullable, Bool.false_eq_true, false_iff]
    intro h
    obtain ⟨c, hc, _⟩ := rmatch_cls_elim h
    simp at hc
  | concat r1 r2 ih1 ih2 =>
    simp only [Regex.nullable, Bool.and_eq_true, ih1, ih2]
    constructor
    · intro h
      have := RMatch.concat h.1 h.2
      simpa using this
    · intro h
      obtain ⟨s1, s2, hs, h1, h2⟩ := rmatch_concat_elim h
      obtain ⟨e1, e2⟩ := List.append_eq_nil.mp hs.symm
      subst e1
      subst e2
      exact ⟨h1, h2⟩
  | alt r1 r2 ih1 ih2 =>
    simp only [Regex.nullable, Bool.or_eq_true, ih1, ih2]
    constructor
    · intro h
      cases h with
      | inl h => exact RMatch.altL h
      | inr h => exact RMatch.altR h
    · exact rmatch_alt_elim
  | star r ih =>
    simp only [Regex.nullable, true_iff]
    exact RMatch.starNil

/-- Brzozowski derivative correctness: `r.deriv a` matches `s` exactly when
`r` matches `a :: s`. -/
theorem deriv_rmatch_iff (a : Char) (r : Regex) (s : List Char) :
    RMatch (r.deriv a) s ↔ RMatch r (a :: s) := by
  induction r generalizing s with
  | emptySet =>
    simp only [Regex.deriv]
    exact ⟨fun h => absurd h (fun h => rmatch_emptySet_elim h),
      fun h => absurd h (fun h => rmatch_emptySet_elim h)⟩
  | epsilon =>
    simp only [Regex.deriv]
    constructor
    · intro h
      exact absurd h (fun h => rmatch_emptySet_elim h)
    · intro h
      simpa using rmatch_epsilon_elim h
  | char c =>
    simp only [Regex.deriv]
    by_cases hac : a = c
    · subst hac
      simp only [if_pos rfl]
      constructor
      · intro h
        have := rmatch_epsilon_elim h
        subst this
        exact RMatch.char a
      · intro h
        have := rmatch_char_elim h
        simp only [List.cons.injEq] at this
        rw [this.2]
        exact RMatch.epsilon
    · simp only [if_neg hac]
      constructor
      · intro h
        exact absurd h (fun h => rmatch_emptySet_elim h)
      · intro h
        have := rmatch_char_elim h
        simp only [List.cons.injEq] at this
        exact absurd this.1 hac
  | dot =>
    simp only [Regex.deriv]
    constructor
    · intro h
      have := rmatch_epsilon_elim h
      subst this
      exact RMatch.dot a
    · intro h
      obtain ⟨c, hc⟩ := rmatch_dot_elim h
      simp only [List.cons.injEq] at hc
      rw [hc.2]
      exact RMatch.epsilon
  | cls neg items =>
    simp only [Regex.deriv]
    by_cases hm : clsMatch neg items a
    · simp only [if_pos hm]
      constructor
      · intro h
        have := rmatch_epsilon_elim h
        subst this
        exact RMatch.cls a hm
      · intro h
        obtain ⟨c, hc, _⟩ := rmatch_cls_elim h
        simp only [List.cons.injEq] at hc
        rw [hc.2]
        exact RMatch.epsilon
    · simp only [if_neg hm]
      constructor
      · intro h
        exact absurd h (fun h => rmatch_emptySet_elim h)
      · intro h
        obtain ⟨c, hc, hmc⟩ := rmatch_cls_elim h
        simp only [List.cons.injEq] at hc
        rw [← hc.1] at hmc
        exact absurd hmc hm
  | concat r1 r2 ih1 ih2 =>
    simp only [Regex.deriv]
    by_cases hn : r1.nullable
    · simp only [if_pos hn]
      constructor
      · intro h
        cases rmatch_alt_elim h with
        | inl h =>
          obtain ⟨s1, s2, hs, h1, h2⟩ := rmatch_concat_elim h
          rw [hs]
          have := RMatch.concat ((ih1 s1).mp h1) h2
          simpa using this
        | inr h =>
          have h0 : RMatch r1 [] := (nullable_iff_rmatch r1).mp hn
          have := RMatch.concat h0 ((ih2 s).mp h)
          simpa using this
      · intro h
        obtain ⟨s1, s2, hs, h1, h2⟩ := rmatch_concat_elim h
        cases s1 with
        | nil =>
          simp only [List.nil_append] at hs
          rw [← hs] at h2
          exact RMatch.altR ((ih2 s).mpr h2)
        | cons b s1t =>
          simp only [List.cons_append, List.cons.injEq] at hs
          rw [← hs.1] at h1
          have h1d := (ih1 s1t).mpr h1
          rw [hs.2]
          exact RMatch.altL (RMatch.concat h1d h2)
    · simp only [if_neg hn]
      constructor
      · intro h
        obtain ⟨s1, s2, hs, h1, h2⟩ := rmatch_concat_elim h
        rw [hs]
        have := RMatch.concat ((ih1 s1).mp h1) h2
        simpa using this
      · intro h
        obtain ⟨s1, s2, hs, h1, h2⟩ := rmatch_concat_elim h
        cases s1 with
        | nil =>
          exact absurd ((nullable_iff_rmatch r1).mpr h1) hn
        | cons b s1t =>
          simp only [List.cons_append, List.cons.injEq] at hs
          rw [← hs.1] at h1
          have h1d := (ih1 s1t).mpr h1
          rw [hs.2]
          exact RMatch.concat h1d h2
  | alt r1 r2 ih1 ih2 =>
    simp only [Regex.deriv]
    constructor
    · intro h
      cases rmatch_alt_elim h with
      | inl h => exact RMatch.altL ((ih1 s).mp h)
      | inr h => exact RMatch.altR ((ih2 s).mp h)
    · intro h
      cases rmatch_alt_elim h with
      | inl h => exact RMatch.altL ((ih1 s).mpr h)
      | inr h => exact RMatch.altR ((ih2 s).mpr h)
  | star r ih =>
    simp only [Regex.deriv]
    constructor
    · intro h
      obtain ⟨s1, s2, hs, h1, h2⟩ := rmatch_concat_elim h
      rw [hs]
      have := RMatch.starCons ((ih s1).mp h1) h2
      simpa using this
    · intro h
      cases rmatch_star_elim h r rfl with
      | inl h0 => exact absurd h0 (by simp)
      | inr h0 =>
        obtain ⟨s1, s2, hs, hne, h1, h2⟩ := h0
        cases s1 with
        | nil => exact absurd rfl hne
        | cons b s1t =>
          simp only [List.cons_append, List.cons.injEq] at hs
          rw [← hs.1] at h1
          have h1d := (ih s1t).mpr h1
          rw [hs.2]
          exact RMatch.concat h1d h2

/-- Boolean `fullMatch` decides the matching relation: anchored semantics. -/
theorem fullMatch_iff_rmatch (r : Regex) (s : List Char) :
    r.fullMatch s = true ↔ RMatch r s := by
  induction s generalizing r with
  | nil => simpa only [Regex.fullMatch] using nullable_iff_rmatch r
  | cons c cs ih =>
    simp only [Regex.fullMatch]
    exact (ih (r.deriv c)).trans (deriv_rmatch_iff c r cs)

/-- Boolean `matchFromStart` searches for a match anchored only on the left: it
holds exactly when some prefix of the input is in the language. -/
theorem matchFromStart_iff_rmatch (r : Regex) (s : List Char) :
    r.matchFromStart s = true ↔ ∃ p q, s = p ++ q ∧ RMatch r p := by
  induction s generalizing r with
  | nil =>
    simp only [Regex.matchFromStart]
    rw [nullable_iff_rmatch]
    constructor
    · intro h
      exact ⟨[], [], rfl, h⟩
    · rintro ⟨p, q, hpq, hp⟩
      obtain ⟨e1, e2⟩ := List.append_eq_nil.mp hpq.symm
      rw [e1] at hp
      exact hp
  | cons c cs ih =>
    simp only [Regex.matchFromStart, Bool.or_eq_true]
    rw [nullable_iff_rmatch, ih]
    constructor
    · rintro (h | ⟨p, q, hpq, hp⟩)
      · exact ⟨[], c :: cs, rfl, h⟩
      · refine ⟨c :: p, q, ?_, (deriv_rmatch_iff c r p).mp hp⟩
        simp [hpq]
    · rintro ⟨p, q, hpq, hp⟩
      cases p with
      | nil =>
        simp only [List.nil_append] at hpq
        exact Or.inl hp
      | cons b pt =>
        simp only [List.cons_append, List.cons.injEq] at hpq
        right
        refine ⟨pt, q, hpq.2, ?_⟩
        rw [← hpq.1] at hp
        exact (deriv_rmatch_iff c r pt).mpr hp

/-- Boolean `isMatch` is unanchored search: it holds exactly when some contiguous
segment of the input is in the language. -/
theorem isMatch_iff_rmatch (r : Regex) (s : List Char) :
    r.isMatch s = true ↔ ∃ p m q, s = p ++ m ++ q ∧ RMatch r m := by
  induction s with
  | nil =>
    simp only [Regex.isMatch]
    rw [nullable_iff_rmatch]
    constructor
    · intro h
      exact ⟨[], [], [], rfl, h⟩
    · rintro ⟨p, m, q, hs, hm⟩
      have := hs.symm
      simp only [List.append_eq_nil] at this
      rw [this.1.2] at hm
      exact hm
  | cons c cs ih =>
    simp only [Regex.isMatch, Bool.or_eq_true]
    rw [matchFromStart_iff_rmatch, ih]
    constructor
    · rintro (⟨m, q, hs, hm⟩ | ⟨p, m, q, hs, hm⟩)
      · exact ⟨[], m, q, by simp [hs], hm⟩
      · exact ⟨c :: p, m, q, by simp [hs], hm⟩
    · rintro ⟨p, m, q, hs, hm⟩
      cases p with
      | nil =>
        left
        refine ⟨m, q, ?_, hm⟩
        simpa using hs
      | cons b pt =>
        right
        simp only [List.cons_append, List.cons.injEq] at hs
        exact ⟨pt, m, q, hs.2, hm⟩

/-- The empty regular expression matches (by search) every string. -/
theorem isMatch_epsilon (s : List Char) : Regex.isMatch .epsilon s = true := by
  cases s with
  | nil => rfl
  | cons c cs =>
    simp [Regex.isMatch, Regex.matchFromStart, Regex.nullable]

/-- Unfolding `mapGet` over a cons cell. -/
theorem mapGet_cons {V : Type} (k1 : String) (v1 : V) (t : AssocMap V)
    (k : String) :
    mapGet ((k1, v1) :: t) k = if k1 = k then some v1 else mapGet t k := by
  by_cases h : k1 = k
  · simp [mapGet, List.find?_cons_of_pos, h]
  · simp [mapGet, List.find?_cons_of_neg, h]

/-- With pairwise-distinct keys, `mapGet` returns exactly the stored
binding. -/
theorem mapGet_eq_some_iff {V : Type} (m : AssocMap V) (k : String)
    (hnd : (mapKeys m).Nodup) (v : V) :
    mapGet m k = some v ↔ (k, v) ∈ m := by
  induction m with
  | nil => simp [mapGet]
  | cons hd t ih =>
    obtain ⟨k1, v1⟩ := hd
    simp only [mapKeys, List.map_cons, List.nodup_cons] at hnd
    rw [mapGet_cons]
    by_cases h : k1 = k
    · subst h
      rw [if_pos rfl]
      constructor
      · intro hv
        have hv2 : v1 = v := by simpa using hv
        subst hv2
        exact List.mem_cons_self _ _
      · intro hv
        rcases List.mem_cons.mp hv with h1 | h2
        · have hv2 : v = v1 := congrArg Prod.snd h1
          rw [hv2]
        · exact absurd (List.mem_map_of_mem (fun p => p.1) h2) hnd.1
    · simp only [if_neg h, List.mem_cons, Prod.mk.injEq]
      rw [ih hnd.2]
      constructor
      · exact Or.inr
      · intro hv
        cases hv with
        | inl hv => exact absurd hv.1.symm h
        | inr hv => exact hv

/-- Lookup `mapGet` returns nothing exactly when no binding has the key. -/
theorem mapGet_eq_none_iff {V : Type} (m : AssocMap V) (k : String) :
    mapGet m k = none ↔ ∀ v, (k, v) ∉ m := by
  induction m with
  | nil => simp [mapGet]
  | cons hd t ih =>
    obtain ⟨k1, v1⟩ := hd
    rw [mapGet_cons]
    by_cases h : k1 = k
    · subst h
      rw [if_pos rfl]
      constructor
      · intro hv
        exact absurd hv (by simp)
      · intro hv
        exact absurd (List.mem_cons_self _ _) (hv v1)
    · rw [if_neg h, ih]
      constructor
      · intro hv v hmem
        rcases List.mem_cons.mp hmem with h1 | h2
        · exact absurd (congrArg Prod.fst h1).symm h
        · exact hv v h2
      · intro hv v h2
        exact hv v (List.mem_cons_of_mem _ h2)

/-- Looking up the just-inserted key. -/
theorem mapGet_mapInsert_self {V : Type} (m : AssocMap V) (k : String) (v : V) :
    mapGet (mapInsert m k v) k = some v := by
  unfold mapInsert
  by_cases hany : List.any m (fun p => p.1 = k)
  · rw [if_pos hany]
    induction m with
    | nil => simp at hany
    | cons hd t ih =>
      obtain ⟨k1, v1⟩ := hd
      by_cases h : k1 = k
      · simp only [List.map_cons, if_pos h]
        rw [mapGet_cons]
        simp
      · simp only [List.map_cons, if_neg h]
        rw [mapGet_cons, if_neg h]
        apply ih
        simp only [List.any_cons, Bool.or_eq_true, decide_eq_true_eq] at hany
        cases hany with
        | inl hany => exact absurd hany h
        | inr hany => simpa using hany
  · rw [if_neg hany]
    induction m with
    | nil => simp [mapGet_cons]
    | cons hd t ih =>
      obtain ⟨k1, v1⟩ := hd
      simp only [List.any_cons, Bool.or_eq_true, decide_eq_true_eq, not_or] at hany
      rw [List.cons_append, mapGet_cons, if_neg hany.1]
      exact ih (by simpa using hany.2)

/-- Inserting a different key leaves a lookup unchanged. -/
theorem mapGet_mapInsert_ne {V : Type} (m : AssocMap V) (k k' : String) (v : V)
    (h : k' ≠ k) :
    mapGet (mapInsert m k v) k' = mapGet m k' := by
  unfold mapInsert
  by_cases hany : List.any m (fun p => p.1 = k)
  · rw [if_pos hany]
    clear hany
    induction m with
    | nil => simp
    | cons hd t ih =>
      obtain ⟨k1, v1⟩ := hd
      by_cases h1 : k1 = k
      · subst h1
        simp only [List.map_cons, if_pos rfl]
        rw [mapGet_cons, mapGet_cons, if_neg (fun hh => h hh.symm),
          if_neg (fun hh => h hh.symm)]
        exact ih
      · simp only [List.map_cons, if_neg h1]
        rw [mapGet_cons, mapGet_cons]
        by_cases h2 : k1 = k'
        · simp [h2]
        · rw [if_neg h2, if_neg h2]
          exact ih
  · rw [if_neg hany]
    have hsingle : List.find? (fun p => decide (p.1 = k')) [(k, v)] = none := by
      rw [List.find?_cons_of_neg]
      · rfl
      · simp only [decide_eq_true_eq]
        exact fun hh => h hh.symm
    simp only [mapGet, List.find?_append, hsingle, Option.or_none]

/-- A value of the map after an insert is an old value or the new one. -/
theorem mapValues_mapInsert {V : Type} (m : AssocMap V) (k : String) (v : V)
    (w : V) (hw : w ∈ mapValues (mapInsert m k v)) :
    w ∈ mapValues m ∨ w = v := by
  unfold mapInsert at hw
  by_cases hany : List.any m (fun p => p.1 = k)
  · rw [if_pos hany] at hw
    simp only [mapValues, List.map_map, List.mem_map] at hw
    obtain ⟨p, hp, hpe⟩ := hw
    by_cases h1 : p.1 = k
    · right
      simp only [Function.comp_apply, if_pos h1] at hpe
      exact hpe.symm
    · left
      simp only [Function.comp_apply, if_neg h1] at hpe
      exact hpe ▸ List.mem_map_of_mem (fun p => p.2) hp
  · rw [if_neg hany] at hw
    simp only [mapValues, List.map_append, List.mem_append] at hw
    cases hw with
    | inl hw => exact Or.inl hw
    | inr hw =>
      right
      simpa using hw

/-- Counting in a filtered list. -/
theorem count_filter_eq {α : Type} [DecidableEq α] (p : α → Bool) (l : List α)
    (a : α) :
    List.count a (List.filter p l) = if p a then List.count a l else 0 := by
  by_cases h : p a
  · rw [if_pos h]
    exact List.count_filter h
  · rw [if_neg h]
    rw [List.count_eq_zero]
    intro hmem
    exact absurd (List.mem_filter.mp hmem).2 (by simp [h])

/-- Every successfully deserialized bank record has empty branches: the
field is skipped, never read from the input. -/
theorem bankRecordOfJson_branches {j : Json} {b : Bank}
    (h : bankRecordOfJson j = some b) : b.branches = [] := by
  cases j <;> simp only [bankRecordOfJson] at h
  any_goals exact Option.noConfusion h
  repeat' split at h
  any_goals exact Option.noConfusion h
  injection h with h
  rw [← h]

/-- Building a bank map leaves lookups of keys not in the input at their
seed value. -/
theorem bankMapOfFields_get_of_not_mem {fields : List (String × Json)}
    {m0 m : BankMap} {k : String}
    (hrun : bankMapOfFields fields m0 = .ok m)
    (hk : k ∉ List.map (fun p => p.1) fields) :
    mapGet m k = mapGet m0 k := by
  induction fields generalizing m0 with
  | nil =>
    simp only [bankMapOfFields] at hrun
    injection hrun with h
    rw [h]
  | cons hd t ih =>
    obtain ⟨k1, j1⟩ := hd
    simp only [bankMapOfFields] at hrun
    cases hb1 : bankRecordOfJson j1 with
    | none =>
      rw [hb1] at hrun
      exact Except.noConfusion hrun
    | some b1 =>
      rw [hb1] at hrun
      simp only [List.map_cons, List.mem_cons, not_or] at hk
      rw [ih hrun hk.2, mapGet_mapInsert_ne _ _ _ _ hk.1]

/-- Building a bank map from inputs with pairwise-distinct keys, each key
looks up to its own deserialized record. -/
theorem bankMapOfFields_get_mem {fields : List (String × Json)}
    {m0 m : BankMap} {k : String} {j : Json} {b : Bank}
    (hrun : bankMapOfFields fields m0 = .ok m)
    (hnd : (List.map (fun p => p.1) fields).Nodup)
    (hmem : (k, j) ∈ fields)
    (hb : bankRecordOfJson j = some b) :
    mapGet m k = some b := by
  induction fields generalizing m0 with
  | nil => simp at hmem
  | cons hd t ih =>
    obtain ⟨k1, j1⟩ := hd
    simp only [bankMapOfFields] at hrun
    cases hb1 : bankRecordOfJson j1 with
    | none =>
      rw [hb1] at hrun
      exact Except.noConfusion hrun
    | some b1 =>
      rw [hb1] at hrun
      simp only [List.map_cons, List.nodup_cons] at hnd
      rcases List.mem_cons.mp hmem with h1 | h2
      · have hk : k = k1 := congrArg Prod.fst h1
        have hj : j = j1 := congrArg Prod.snd h1
        subst hk
        rw [hj, hb1] at hb
        injection hb with hbb
        rw [bankMapOfFields_get_of_not_mem hrun hnd.1, mapGet_mapInsert_self,
          hbb]
      · exact ih hrun hnd.2 h2

/-- A successful build means every input record deserialized. -/
theorem bankMapOfFields_ok_all {fields : List (String × Json)}
    {m0 m : BankMap} (hrun : bankMapOfFields fields m0 = .ok m) :
    ∀ p ∈ fields, ∃ b, bankRecordOfJson p.2 = some b := by
  induction fields generalizing m0 with
  | nil => simp
  | cons hd t ih =>
    obtain ⟨k1, j1⟩ := hd
    simp only [bankMapOfFields] at hrun
    cases hb1 : bankRecordOfJson j1 with
    | none =>
      rw [hb1] at hrun
      exact Except.noConfusion hrun
    | some b1 =>
      rw [hb1] at hrun
      intro p hp
      rcases List.mem_cons.mp hp with h1 | h2
      · exact ⟨b1, by rw [h1]; exact hb1⟩
      · exact ih hrun p h2

/-- If every input record deserializes, the build succeeds. -/
theorem bankMapOfFields_total {fields : List (String × Json)} (m0 : BankMap)
    (hall : ∀ p ∈ fields, ∃ b, bankRecordOfJson p.2 = some b) :
    ∃ m, bankMapOfFields fields m0 = .ok m := by
  induction fields generalizing m0 with
  | nil => exact ⟨m0, rfl⟩
  | cons hd t ih =>
    obtain ⟨k1, j1⟩ := hd
    obtain ⟨b1, hb1⟩ := hall (k1, j1) (List.mem_cons_self _ _)
    obtain ⟨m, hm⟩ :=
      ih (mapInsert m0 k1 b1) (fun p hp => hall p (List.mem_cons_of_mem _ hp))
    refine ⟨m, ?_⟩
    simp only [bankMapOfFields]
    rw [hb1]
    exact hm

/-- A bank-map build only ever fails with a parse error. -/
theorem bankMapOfFields_error {fields : List (String × Json)} {m0 : BankMap}
    {e : ZenginError} (h : bankMapOfFields fields m0 = .error e) :
    e = .parseError := by
  induction fields generalizing m0 with
  | nil => exact Except.noConfusion h
  | cons hd t ih =>
    obtain ⟨k1, j1⟩ := hd
    simp only [bankMapOfFields] at h
    cases hb1 : bankRecordOfJson j1 with
    | none =>
      rw [hb1] at h
      injection h with h
      exact h.symm
    | some b1 =>
      rw [hb1] at h
      exact ih h

/-- A branch-map build only ever fails with a parse error. -/
theorem branchMapOfFields_error {fields : List (String × Json)}
    {m0 : BranchMap} {e : ZenginError}
    (h : branchMapOfFields fields m0 = .error e) :
    e = .parseError := by
  induction fields generalizing m0 with
  | nil => exact Except.noConfusion h
  | cons hd t ih =>
    obtain ⟨k1, j1⟩ := hd
    simp only [branchMapOfFields] at h
    cases hb1 : branchRecordOfJson j1 with
    | none =>
      rw [hb1] at h
      injection h with h
      exact h.symm
    | some b1 =>
      rw [hb1] at h
      exact ih h

/-- Values of a built bank map all carry empty branches (given an empty
seed). -/
theorem bankMapOfFields_branches {fields : List (String × Json)}
    {m0 m : BankMap} (hrun : bankMapOfFields fields m0 = .ok m)
    (h0 : ∀ b ∈ mapValues m0, b.branches = []) :
    ∀ b ∈ mapValues m, b.branches = [] := by
  induction fields generalizing m0 with
  | nil =>
    simp only [bankMapOfFields] at hrun
    injection hrun with h
    rw [← h]
    exact h0
  | cons hd t ih =>
    obtain ⟨k1, j1⟩ := hd
    simp only [bankMapOfFields] at hrun
    cases hb1 : bankRecordOfJson j1 with
    | none =>
      rw [hb1] at hrun
      exact Except.noConfusion hrun
    | some b1 =>
      rw [hb1] at hrun
      refine ih hrun ?_
      intro b hbm
      rcases mapValues_mapInsert m0 k1 b1 b hbm with h | h
      · exact h0 b h
      · rw [h]
        exact bankRecordOfJson_branches hb1

/-- A parse of branch text only ever fails with a parse error. -/
theorem parse_branches_error {t : JsonText} {e : ZenginError}
    (h : parse_branches t = .error e) : e = .parseError := by
  cases t with
  | invalidUtf8Bytes =>
    injection h with h
    exact h.symm
  | malformed =>
    injection h with h
    exact h.symm
  | wellFormed j =>
    cases j <;> simp only [parse_branches] at h
    case obj fields => exact branchMapOfFields_error h
    all_goals
      injection h with h
      exact h.symm

/-- After a successful read, loading branches either succeeds or reports a
parse error. -/
theorem load_branches_read_ok_cases {f : Option JsonText} {t : JsonText}
    (h : read_data_file f = .ok t) :
    load_branches_from_file f = .error .parseError ∨
      ∃ m, load_branches_from_file f = .ok m := by
  cases hp : parse_branches t with
  | error e =>
    left
    rw [parse_branches_error hp] at hp
    unfold load_branches_from_file
    simp only [h, hp]
  | ok m =>
    refine Or.inr ⟨m, ?_⟩
    unfold load_branches_from_file
    simp only [h, hp]

/-- A fully attached bank list records, for each bank, exactly the branch
map its own branch file loads to. -/
theorem attachBranches_ok {ds : DataSource} {l l2 : List (String × Bank)}
    (h : attachBranches ds l = .ok l2) :
    ∀ p ∈ l2,
      load_branches_from_file (ds.branchFile p.2.code) = .ok p.2.branches := by
  induction l generalizing l2 with
  | nil =>
    simp only [attachBranches] at h
    injection h with h
    rw [← h]
    simp
  | cons hd t ih =>
    obtain ⟨k, b⟩ := hd
    simp only [attachBranches] at h
    cases hload : load_branches_from_file (ds.branchFile b.code) with
    | panic =>
      rw [hload] at h
      exact LoadOutcome.noConfusion h
    | error e =>
      rw [hload] at h
      exact LoadOutcome.noConfusion h
    | ok brs =>
      rw [hload] at h
      cases hrest : attachBranches ds t with
      | panic =>
        rw [hrest] at h
        exact LoadOutcome.noConfusion h
      | error e =>
        rw [hrest] at h
        exact LoadOutcome.noConfusion h
      | ok rest2 =>
        rw [hrest] at h
        injection h with h
        intro p hp
        rw [← h] at hp
        rcases List.mem_cons.mp hp with h1 | h2
        · rw [h1]
          exact hload
        · exact ih hrest p h2

/-- When every branch file reads and one of them fails to parse, attaching
reports a parse error. -/
theorem attachBranches_parse_error {ds : DataSource}
    {l : List (String × Bank)}
    (hread : ∀ q ∈ l, ∃ t, read_data_file (ds.branchFile q.2.code) = .ok t)
    (hbad : ∃ p ∈ l,
      load_branches_from_file (ds.branchFile p.2.code) = .error .parseError) :
    attachBranches ds l = .error .parseError := by
  induction l with
  | nil => simp at hbad
  | cons hd t ih =>
    obtain ⟨k, b⟩ := hd
    simp only [attachBranches]
    obtain ⟨t0, ht0⟩ := hread (k, b) (List.mem_cons_self _ _)
    rcases load_branches_read_ok_cases ht0 with hbadhd | ⟨m, hm⟩
    · rw [hbadhd]
    · rw [hm]
      obtain ⟨p, hp, hbadp⟩ := hbad
      rcases List.mem_cons.mp hp with h1 | h2
      · rw [h1] at hbadp
        have hcontra :
            load_branches_from_file (ds.branchFile b.code) =
              .error .parseError := hbadp
        rw [hm] at hcontra
        exact LoadOutcome.noConfusion hcontra
      · rw [ih (fun q hq => hread q (List.mem_cons_of_mem _ hq)) ⟨p, h2, hbadp⟩]

/-- With an accepted pattern, `find_banks_by` is the filter by unanchored
match over the field extractor. -/
theorem find_banks_by_eq (z : Zengin) (pattern : String) (ext : Bank → String)
    (re : Regex) (h : Regex.compile pattern = .ok re) :
    z.find_banks_by pattern ext =
      .ok (List.filter (fun b => re.isMatchStr (ext b)) (mapValues z.banks)) := by
  unfold Zengin.find_banks_by
  simp only [h]

/-- Branch analogue of `find_banks_by_eq`. -/
theorem find_branches_by_eq (bk : Bank) (pattern : String)
    (ext : Branch → String) (re : Regex) (h : Regex.compile pattern = .ok re) :
    bk.find_branches_by pattern ext =
      .ok (List.filter (fun br => re.isMatchStr (ext br))
        (mapValues bk.branches)) := by
  unfold Bank.find_branches_by
  simp only [h]

/-- Search contract of `find_banks_by` for any extractor: the result holds
each bank as often as the collection does when its field contains a match,
and not at all otherwise. -/
theorem find_banks_by_spec (z : Zengin) (pattern : String) (ext : Bank → String)
    (re : Regex) (h : Regex.compile pattern = .ok re) :
    ∃ out, z.find_banks_by pattern ext = .ok out ∧
      (∀ b : Bank, List.count b out =
        if re.isMatchStr (ext b) then List.count b (mapValues z.banks)
        else 0) ∧
      (∀ b : Bank, b ∈ out ↔ b ∈ mapValues z.banks ∧
        ∃ p m q, (ext b).data = p ++ m ++ q ∧ RMatch re m) := by
  refine ⟨_, find_banks_by_eq z pattern ext re h, ?_, ?_⟩
  · intro b
    exact count_filter_eq _ _ _
  · intro b
    rw [List.mem_filter]
    constructor
    · rintro ⟨hb, hm⟩
      exact ⟨hb, (isMatch_iff_rmatch re (ext b).data).mp hm⟩
    · rintro ⟨hb, hm⟩
      exact ⟨hb, (isMatch_iff_rmatch re (ext b).data).mpr hm⟩

/-- Branch analogue of `find_banks_by_spec`. -/
theorem find_branches_by_spec (bk : Bank) (pattern : String)
    (ext : Branch → String) (re : Regex)
    (h : Regex.compile pattern = .ok re) :
    ∃ out, bk.find_branches_by pattern ext = .ok out ∧
      (∀ br : Branch, List.count br out =
        if re.isMatchStr (ext br) then List.count br (mapValues bk.branches)
        else 0) ∧
      (∀ br : Branch, br ∈ out ↔ br ∈ mapValues bk.branches ∧
        ∃ p m q, (ext br).data = p ++ m ++ q ∧ RMatch re m) := by
  refine ⟨_, find_branches_by_eq bk pattern ext re h, ?_, ?_⟩
  · intro br
    exact count_filter_eq _ _ _
  · intro br
    rw [List.mem_filter]
    constructor
    · rintro ⟨hb, hm⟩
      exact ⟨hb, (isMatch_iff_rmatch re (ext br).data).mp hm⟩
    · rintro ⟨hb, hm⟩
      exact ⟨hb, (isMatch_iff_rmatch re (ext br).data).mpr hm⟩

/-- An error from `find_banks_by` is exactly a pattern-compilation
error. -/
theorem find_banks_by_error_iff (z : Zengin) (pattern : String)
    (ext : Bank → String) (e : String) :
    z.find_banks_by pattern ext = .error e ↔
      Regex.compile pattern = .error e := by
  unfold Zengin.find_banks_by
  cases h : Regex.compile pattern <;> simp [h]

/-- Branch analogue of `find_banks_by_error_iff`. -/
theorem find_branches_by_error_iff (bk : Bank) (pattern : String)
    (ext : Branch → String) (e : String) :
    bk.find_branches_by pattern ext = .error e ↔
      Regex.compile pattern = .error e := by
  unfold Bank.find_branches_by
  cases h : Regex.compile pattern <;> simp [h]

/-- The empty pattern compiles and keeps every bank. -/
theorem find_banks_by_empty (z : Zengin) (ext : Bank → String) :
    z.find_banks_by "" ext = .ok (mapValues z.banks) := by
  have hc : Regex.compile "" = Except.ok Regex.epsilon := rfl
  unfold Zengin.find_banks_by
  simp only [hc]
  have hall : List.filter (fun bank => Regex.epsilon.isMatchStr (ext bank))
      (mapValues z.banks) = mapValues z.banks :=
    List.filter_eq_self.mpr (fun a _ => isMatch_epsilon (ext a).data)
  rw [hall]

/-- The empty pattern compiles and keeps every branch. -/
theorem find_branches_by_empty (bk : Bank) (ext : Branch → String) :
    bk.find_branches_by "" ext = .ok (mapValues bk.branches) := by
  have hc : Regex.compile "" = Except.ok Regex.epsilon := rfl
  unfold Bank.find_branches_by
  simp only [hc]
  have hall : List.filter (fun br => Regex.epsilon.isMatchStr (ext br))
      (mapValues bk.branches) = mapValues bk.branches :=
    List.filter_eq_self.mpr (fun a _ => isMatch_epsilon (ext a).data)
  rw [hall]

/-- A build with an undeserializable record reports a parse error. -/
theorem bankMapOfFields_fail {fields : List (String × Json)} {m0 : BankMap}
    {p : String × Json} (hp : p ∈ fields)
    (hnone : bankRecordOfJson p.2 = none) :
    bankMapOfFields fields m0 = .error .parseError := by
  cases hres : bankMapOfFields fields m0 with
  | ok m =>
    obtain ⟨b, hb⟩ := bankMapOfFields_ok_all hres p hp
    rw [hnone] at hb
    exact Option.noConfusion hb
  | error e => rw [bankMapOfFields_error hres]

/-- A bank-index loading error propagates out of construction. -/
theorem new_of_load_error {ds : DataSource} {e : ZenginError}
    (h : load_banks_from_file ds.bankFile = .error e) :
    Zengin.new ds = .error e := by
  unfold Zengin.new
  simp only [h]

/-- Claim C1: for every loaded collection, every field selector and every
pattern the engine accepts, `find_banks_by_<field>` returns `Ok` with
exactly those banks whose selected field contains a match of the pattern
(unanchored search semantics), each matching bank exactly as often as it
occurs in the collection; the same holds for `find_branches_by_<field>`
over one bank's branch set. -/
theorem spec_c1_find_by_contract (z : Zengin) (bk : Bank) (f : NameField)
    (pattern : String) (re : Regex)
    (h : Regex.compile pattern = .ok re) :
    (∃ out, findBanksByField z f pattern = .ok out ∧
      (∀ b : Bank, List.count b out =
        if re.isMatchStr (bankField f b) then List.count b (mapValues z.banks)
        else 0) ∧
      (∀ b : Bank, b ∈ out ↔ b ∈ mapValues z.banks ∧
        ∃ p m q, (bankField f b).data = p ++ m ++ q ∧ RMatch re m)) ∧
    (∃ out, findBranchesByField bk f pattern = .ok out ∧
      (∀ br : Branch, List.count br out =
        if re.isMatchStr (branchField f br) then
          List.count br (mapValues bk.branches) else 0) ∧
      (∀ br : Branch, br ∈ out ↔ br ∈ mapValues bk.branches ∧
        ∃ p m q, (branchField f br).data = p ++ m ++ q ∧ RMatch re m)) := by
  cases f with
  | name =>
    exact ⟨find_banks_by_spec z pattern (fun b => b.name) re h,
      find_branches_by_spec bk pattern (fun br => br.name) re h⟩
  | kana =>
    exact ⟨find_banks_by_spec z pattern (fun b => b.kana) re h,
      find_branches_by_spec bk pattern (fun br => br.kana) re h⟩
  | hira =>
    exact ⟨find_banks_by_spec z pattern (fun b => b.hira) re h,
      find_branches_by_spec bk pattern (fun br => br.hira) re h⟩
  | roma =>
    exact ⟨find_banks_by_spec z pattern (fun b => b.roma) re h,
      find_branches_by_spec bk pattern (fun br => br.roma) re h⟩

/-- Witness for C1 at a concrete collection and pattern. -/
theorem spec_c1_witness :
    Regex.compile "a" = .ok (.char 'a') ∧
    ((∃ out, findBanksByField zW .name "a" = .ok out ∧
      (∀ b : Bank, List.count b out =
        if (Regex.char 'a').isMatchStr (bankField .name b) then
          List.count b (mapValues zW.banks) else 0) ∧
      (∀ b : Bank, b ∈ out ↔ b ∈ mapValues zW.banks ∧
        ∃ p m q, (bankField .name b).data = p ++ m ++ q ∧
          RMatch (Regex.char 'a') m)) ∧
    (∃ out, findBranchesByField bankW .name "a" = .ok out ∧
      (∀ br : Branch, List.count br out =
        if (Regex.char 'a').isMatchStr (branchField .name br) then
          List.count br (mapValues bankW.branches) else 0) ∧
      (∀ br : Branch, br ∈ out ↔ br ∈ mapValues bankW.branches ∧
        ∃ p m q, (branchField .name br).data = p ++ m ++ q ∧
          RMatch (Regex.char 'a') m))) :=
  ⟨rfl, spec_c1_find_by_contract zW bankW .name "a" (.char 'a') rfl⟩

/-- Dispatching on a field selector is the generic search with that
field's extractor. -/
theorem findBanksByField_eq (z : Zengin) (f : NameField) (pattern : String) :
    findBanksByField z f pattern = z.find_banks_by pattern (bankField f) := by
  cases f <;> rfl

/-- Branch analogue of `findBanksByField_eq`. -/
theorem findBranchesByField_eq (bk : Bank) (f : NameField)
    (pattern : String) :
    findBranchesByField bk f pattern =
      bk.find_branches_by pattern (branchField f) := by
  cases f <;> rfl

/-- Claim C2: each `find_*_by_*` operation fails exactly when the pattern
fails to compile, with the compiler's error; an accepted pattern always
yields `Ok`; and the collection is left unchanged either way. -/
theorem spec_c2_pattern_error (z : Zengin) (bk : Bank) (f : NameField)
    (pattern : String) :
    (∀ e, findBanksByField z f pattern = .error e ↔
        Regex.compile pattern = .error e) ∧
    (∀ e, findBranchesByField bk f pattern = .error e ↔
        Regex.compile pattern = .error e) ∧
    (∀ re, Regex.compile pattern = .ok re →
      (∃ out, findBanksByField z f pattern = .ok out) ∧
      (∃ out, findBranchesByField bk f pattern = .ok out)) ∧
    (runQuery z (.findBanksBy f pattern)).2 = z := by
  refine ⟨?_, ?_, ?_, rfl⟩
  · intro e
    cases f <;> exact find_banks_by_error_iff z pattern _ e
  · intro e
    cases f <;> exact find_branches_by_error_iff bk pattern _ e
  · intro re h
    constructor
    · obtain ⟨out, hout, -, -⟩ := find_banks_by_spec z pattern (bankField f) re h
      refine ⟨out, ?_⟩
      rw [findBanksByField_eq]
      exact hout
    · obtain ⟨out, hout, -, -⟩ :=
        find_branches_by_spec bk pattern (branchField f) re h
      refine ⟨out, ?_⟩
      rw [findBranchesByField_eq]
      exact hout

/-- Witness for C2: an unbalanced parenthesis yields the pattern error on
both search families; a valid pattern yields `Ok`. -/
theorem spec_c2_witness :
    findBanksByField zW .name "(" = .error "unclosed group" ∧
    findBranchesByField bankW .name "(" = .error "unclosed group" ∧
    (∃ out, findBanksByField zW .name "a" = .ok out) :=
  ⟨((spec_c2_pattern_error zW bankW .name "(").1 "unclosed group").mpr rfl,
   ((spec_c2_pattern_error zW bankW .name "(").2.1 "unclosed group").mpr rfl,
   ((spec_c2_pattern_error zW bankW .name "a").2.2.1 (.char 'a') rfl).1⟩

/-- Claim C3 (refuted on the code): when the branch index file for a bank
code is absent, `Zengin::new` does not return a typed NotFoundError — it
panics, through `Option::unwrap` in `read_data_file`.  The second conjunct
shows the claim's other half, an unreadable (invalid UTF-8) resource, does
surface as a typed IO error. -/
theorem spec_c3_missing_branch_file_panics :
    Zengin.new missingBranchDS = .panic ∧
    Zengin.new unreadableBranchDS = .error .ioError :=
  ⟨rfl, rfl⟩

/-- Claim C4: `get_bank` is an exact key lookup with no normalization:
with pairwise-distinct keys it returns exactly the bank stored under the
given code, and the empty option — never an error — when the code is
absent; `get_branch` behaves the same within one bank. -/
theorem spec_c4_get_exact (z : Zengin) (bk : Bank) (code : String)
    (hz : (mapKeys z.banks).Nodup) (hb : (mapKeys bk.branches).Nodup) :
    (∀ b, z.get_bank code = some b ↔ (code, b) ∈ z.banks) ∧
    (z.get_bank code = none ↔ ∀ b, (code, b) ∉ z.banks) ∧
    (∀ br, bk.get_branch code = some br ↔ (code, br) ∈ bk.branches) ∧
    (bk.get_branch code = none ↔ ∀ br, (code, br) ∉ bk.branches) :=
  ⟨fun b => mapGet_eq_some_iff _ _ hz b, mapGet_eq_none_iff _ _,
    fun br => mapGet_eq_some_iff _ _ hb br, mapGet_eq_none_iff _ _⟩

/-- Witness for C4 at the sample collection. -/
theorem spec_c4_witness :
    (mapKeys zW.banks).Nodup ∧ (mapKeys bankW.branches).Nodup ∧
    (zW.get_bank "0001" = some bankW ↔ ("0001", bankW) ∈ zW.banks) ∧
    (bankW.get_branch "001" = some branchW ↔
      ("001", branchW) ∈ bankW.branches) :=
  ⟨by decide, by decide,
    (spec_c4_get_exact zW bankW "0001" (by decide) (by decide)).1 bankW,
    (spec_c4_get_exact zW bankW "001" (by decide) (by decide)).2.2.1 branchW⟩

/-- Claim C5: for valid bank-index JSON (an object of deserializable
records with pairwise-distinct keys), parsing succeeds and looking up any
key of the input returns the record the input associates with it. -/
theorem spec_c5_roundtrip (fields : List (String × Json)) (k : String)
    (j : Json) (b : Bank)
    (hnd : (List.map (fun p => p.1) fields).Nodup)
    (hall : ∀ p ∈ fields, ∃ rec, bankRecordOfJson p.2 = some rec)
    (hmem : (k, j) ∈ fields)
    (hb : bankRecordOfJson j = some b) :
    ∃ m, parse_banks (.wellFormed (.obj fields)) = .ok m ∧
      Zengin.get_bank { banks := m } k = some b := by
  obtain ⟨m, hm⟩ := bankMapOfFields_total [] hall
  exact ⟨m, hm, bankMapOfFields_get_mem hm hnd hmem hb⟩

/-- Witness for C5 at a one-record document. -/
theorem spec_c5_witness :
    (List.map (fun p => p.1) [("0001", bankRecJsonW)]).Nodup ∧
    bankRecordOfJson bankRecJsonW = some bankRecW ∧
    ∃ m, parse_banks (.wellFormed (.obj [("0001", bankRecJsonW)])) = .ok m ∧
      Zengin.get_bank { banks := m } "0001" = some bankRecW :=
  ⟨by decide, rfl,
    spec_c5_roundtrip [("0001", bankRecJsonW)] "0001" bankRecJsonW bankRecW
      (by decide)
      (fun p hp => ⟨bankRecW, by rw [List.mem_singleton.mp hp]; rfl⟩)
      (List.mem_singleton.mpr rfl) rfl⟩

/-- Claim C6: malformed JSON or an undeserializable record — in the bank
index or in any reachable branch index — makes construction fail with a
parse error returned to the caller, and a successfully constructed
collection is fully populated: every bank holds exactly the branch map its
own branch file loads to. -/
theorem spec_c6_parse_failures_abort (ds : DataSource) :
    (ds.bankFile = some .malformed → Zengin.new ds = .error .parseError) ∧
    (∀ fields p, ds.bankFile = some (.wellFormed (.obj fields)) →
      p ∈ fields → bankRecordOfJson p.2 = none →
      Zengin.new ds = .error .parseError) ∧
    (∀ banks, load_banks_from_file ds.bankFile = .ok banks →
      (∀ q ∈ banks, ∃ t, read_data_file (ds.branchFile q.2.code) = .ok t) →
      (∃ p ∈ banks,
        load_branches_from_file (ds.branchFile p.2.code) =
          .error .parseError) →
      Zengin.new ds = .error .parseError) ∧
    (∀ z, Zengin.new ds = .ok z →
      ∀ p ∈ z.banks,
        load_branches_from_file (ds.branchFile p.2.code) =
          .ok p.2.branches) := by
  refine ⟨?_, ?_, ?_, ?_⟩
  · intro h
    apply new_of_load_error
    rw [h]
    rfl
  · intro fields p hbf hp hnone
    apply new_of_load_error
    have hfail := @bankMapOfFields_fail fields [] p hp hnone
    unfold load_banks_from_file
    simp only [hbf, read_data_file, parse_banks, hfail]
  · intro banks hbanks hread hbad
    have hattach := attachBranches_parse_error hread hbad
    unfold Zengin.new
    simp only [hbanks, hattach]
  · intro z hz p hp
    unfold Zengin.new at hz
    cases hl : load_banks_from_file ds.bankFile with
    | panic =>
      rw [hl] at hz
      exact LoadOutcome.noConfusion hz
    | error e =>
      rw [hl] at hz
      exact LoadOutcome.noConfusion hz
    | ok banks =>
      simp only [hl] at hz
      cases ha : attachBranches ds banks with
      | panic =>
        simp only [ha] at hz
        exact LoadOutcome.noConfusion hz
      | error e =>
        simp only [ha] at hz
        exact LoadOutcome.noConfusion hz
      | ok banks2 =>
        simp only [ha] at hz
        injection hz with hz
        rw [← hz] at hp
        exact attachBranches_ok ha p hp

/-- Witness for C6: a malformed bank index and a malformed branch index
each abort construction with a parse error. -/
theorem spec_c6_witness :
    Zengin.new malformedBankDS = .error .parseError ∧
    Zengin.new malformedBranchDS = .error .parseError :=
  ⟨(spec_c6_parse_failures_abort malformedBankDS).1 rfl,
   (spec_c6_parse_failures_abort malformedBranchDS).2.2.1
     [("0001", bankRecW)] rfl
     (fun _ _ => ⟨.malformed, rfl⟩)
     ⟨("0001", bankRecW), List.mem_singleton.mpr rfl, rfl⟩⟩

/-- Claim C7: the collection is immutable under the public query API —
every query hands back the very collection it was given, since every
source method takes a shared reference with no interior mutability. -/
theorem spec_c7_queries_preserve_state (z : Zengin) (q : Query) :
    (runQuery z q).2 = z := by
  cases q <;> rfl

/-- Claim C8: parsing bank-index JSON alone yields banks whose branch maps
are all empty; the `branches` field is skipped during deserialization and
only populated afterwards. -/
theorem spec_c8_parse_banks_branches_empty (fields : List (String × Json))
    (m : BankMap) (h : parse_banks (.wellFormed (.obj fields)) = .ok m) :
    ∀ b ∈ mapValues m, b.branches = [] := by
  have h2 : bankMapOfFields fields [] = .ok m := h
  exact bankMapOfFields_branches h2 (by simp [mapValues])

/-- Witness for C8 on a record that even carries a `branches` key in its
JSON: the parsed bank still has an empty branch map. -/
theorem spec_c8_witness :
    parse_banks (.wellFormed (.obj [("0001", bankRecJsonBrW)])) =
      .ok [("0001", bankRecW)] ∧
    ∀ b ∈ mapValues [("0001", bankRecW)], b.branches = [] :=
  ⟨rfl, spec_c8_parse_banks_branches_empty [("0001", bankRecJsonBrW)]
    [("0001", bankRecW)] rfl⟩

/-- Claim C9: the loader does not require a JSON map key to equal the
record's `code` field: this input parses, and the bank stored under key
"9999" carries code "0001". -/
theorem spec_c9_map_key_not_code :
    ∃ m, parse_banks (.wellFormed mismatchJsonW) = .ok m ∧
      ∃ b, Zengin.get_bank { banks := m } "9999" = some b ∧
        b.code = "0001" ∧ b.code ≠ "9999" :=
  ⟨[("9999", bankMismatchW)], rfl, bankMismatchW, rfl, rfl, by decide⟩

/-- Claim C10: the empty pattern is accepted (compiling to the empty-string
regex, which matches every string by search), so every `find_*_by_*` with
pattern "" returns `Ok` holding the whole collection. -/
theorem spec_c10_empty_pattern (z : Zengin) (bk : Bank) (f : NameField) :
    Regex.compile "" = .ok .epsilon ∧
    (∀ s : String, Regex.isMatchStr .epsilon s = true) ∧
    findBanksByField z f "" = .ok (mapValues z.banks) ∧
    findBranchesByField bk f "" = .ok (mapValues bk.branches) := by
  refine ⟨rfl, fun s => isMatch_epsilon s.data, ?_, ?_⟩
  · rw [findBanksByField_eq]
    exact find_banks_by_empty z (bankField f)
  · rw [findBranchesByField_eq]
    exact find_branches_by_empty bk (branchField f)
